import Mathlib

/-!
Shallow embedding of the QuickPizza catalog store
(`pkg/database/catalog.go` and `pkg/model/user.go`) and proofs about it.

External collaborators (the bun/SQL storage engine, the password helper,
the random token generator, the error injector) appear as parameters:
each model function takes the outcome of every external call it makes,
so that a run of the model is one concrete execution of the Go code.
-/

set_option autoImplicit false

namespace QP

/-- A row of a bounded table as the size enforcer sees it: the `id`
primary key (autoincrement, never reused) and the `created_at`
timestamp used for the recency ordering. -/
structure Row where
  id : Int
  created_at : Int
deriving DecidableEq

/-- The total order the storage engine uses to answer
`ORDER BY created_at DESC`: `q` ranks strictly above `r` when its
timestamp is larger, or when the timestamps tie and the engine's tie
order `tb` puts `q` above `r`.  The query in `enforceTableSizeLimits`
names only `created_at`, so the tie order among equal timestamps is the
engine's choice; it is kept as the parameter `tb`. -/
def engineLt (tb : Row → Row → Bool) (r q : Row) : Bool :=
  decide (r.created_at < q.created_at) || (decide (r.created_at = q.created_at) && tb r q)

/-- Number of rows of `table` ranking strictly above `r` in the
engine's `created_at DESC` order. -/
def rank (tb : Row → Row → Bool) (table : List Row) (r : Row) : Nat :=
  table.countP (engineLt tb r)

/-- Whether `r` is among the rows returned by
`SELECT id FROM table ORDER BY created_at DESC LIMIT maximum`:
fewer than `maximum` rows rank above it. -/
def inTop (tb : Row → Row → Bool) (maximum : Int) (table : List Row) (r : Row) : Bool :=
  decide ((rank tb table r : Int) < maximum)

/-- `enforceTableSizeLimits` from `catalog.go`: if `maximum <= 0` do
nothing; otherwise delete every row satisfying
`id NOT IN (SELECT id ... ORDER BY created_at DESC LIMIT maximum) AND id > fixed`,
i.e. keep exactly the rows that are in the selected top set or whose
`id` is at most `fixed`. -/
def enforceTableSizeLimits (tb : Row → Row → Bool) (fixed maximum : Int)
    (table : List Row) : List Row :=
  if maximum ≤ 0 then table
  else table.filter fun r => inTop tb maximum table r || decide (r.id ≤ fixed)

/-- The tie order stated by the spec: among equal timestamps, ties are
broken by identity descending, so `q` ranks above `r` when `q.id > r.id`. -/
def specTieBreak (r q : Row) : Bool :=
  decide (r.id < q.id)

/-- `model.User` from `pkg/model/user.go`.  `Password` is the transient
plaintext (tagged `bun:"-"`, never persisted); `PasswordHash` the stored
digest. -/
structure User where
  ID : Int
  Username : String
  Token : String
  Password : String
  PasswordHash : String
deriving DecidableEq

/-- `MaxNameLength` from `pkg/model/user.go`. -/
def MaxNameLength : Nat := 32

/-- `(*User).Validate` from `pkg/model/user.go`: a `switch` checking, in
order, empty username, username longer than `MaxNameLength` (Go `len`
counts bytes; usernames are treated as ASCII here), the reserved
username `default`, and empty password; the first failing rule wins and
`none` means valid.  `RecordUser` in `catalog.go` does not call it. -/
def User.Validate (u : User) : Option String :=
  if u.Username = "" then some "username field is empty"
  else if MaxNameLength < u.Username.length then some "username field is too long"
  else if u.Username = "default" then some "username field is invalid"
  else if u.Password = "" then some "password is empty"
  else none

/-- The external calls `RecordUser` makes and the storage outcomes of
its transaction, one record per invocation:
`hash` is `password.HashPassword`, `tok` the string returned by
`model.GenerateUserToken()`, `insertErr`/`deleteErr` the storage error
(if any) of the `INSERT` and of the enforcer's `DELETE`, and
`newId`/`newCa` the autoincrement id and `created_at` the engine assigns
to the inserted row. -/
structure UserOpParams where
  hash : String → Except String String
  tok : String
  insertErr : Option String
  deleteErr : Option String
  newId : Int
  newCa : Int
  user : User

/-- `(*Catalog).RecordUser` from `catalog.go`: hash the password (abort
on failure), set `PasswordHash` and `Token` on the caller's `User`
value, then inside one transaction insert the row and run
`enforceTableSizeLimits` with `(fixedUsers, maxUsers)`; any storage
failure rolls the transaction back, leaving the table as it was.
Returns the final value of the caller's `User` argument, the users
table after the call, and the returned error. -/
def RecordUser (tb : Row → Row → Bool) (fixedUsers maxUsers : Int)
    (p : UserOpParams) (users : List Row) : User × List Row × Option String :=
  match p.hash p.user.Password with
  | .error e => (p.user, users, some e)
  | .ok h =>
    let u := { p.user with PasswordHash := h, Token := p.tok }
    match p.insertErr with
    | some e => (u, users, some e)
    | none =>
      match p.deleteErr with
      | some e => (u, users, some e)
      | none =>
        (u, enforceTableSizeLimits tb fixedUsers maxUsers
              (users ++ [{ id := p.newId, created_at := p.newCa }]), none)

/-- The zero value of `model.User`, which is what the local `user`
variable in `LoginUser` holds when `Scan` fails. -/
def emptyUser : User :=
  { ID := 0, Username := "", Token := "", Password := "", PasswordHash := "" }

/-- Outcome of the `SELECT ... WHERE username = ?` lookup in
`LoginUser`: a row was found, `sql.ErrNoRows`, or some other storage
error. -/
inductive LookupResult where
  | found (u : User)
  | noRows
  | dbError (e : String)
deriving DecidableEq

/-- `(*Catalog).LoginUser` from `catalog.go`: if the lookup returns
`sql.ErrNoRows`, return `(nil, nil)`; any other lookup error is NOT
returned — the code falls through to `password.CheckPassword` with the
zero-valued `user` and returns `(nil, nil)` (or that zero value) with a
nil error.  `check` is `password.CheckPassword`. -/
def LoginUser (check : String → String → Bool) (lookup : LookupResult)
    (passwordText : String) : Option User × Option String :=
  match lookup with
  | .noRows => (none, none)
  | .dbError _ =>
    if check passwordText emptyUser.PasswordHash then (some emptyUser, none)
    else (none, none)
  | .found u =>
    if check passwordText u.PasswordHash then (some u, none)
    else (none, none)

/-- `model.Dough`, reduced to the only field `RecordRecommendation`
reads. -/
structure Dough where
  ID : Int
deriving DecidableEq

/-- `model.Ingredient`, reduced to the only field `RecordRecommendation`
reads. -/
structure Ingredient where
  ID : Int
deriving DecidableEq

/-- Modelled from the spec: `model.Pizza` (its Go source is not part of
this package) carries a numeric identity, "a required reference to
exactly one Dough" — a reference that may therefore be absent, modelled
as `Option Dough` — the denormalized `DoughID` copied from it, and the
referenced ingredients. -/
structure Pizza where
  ID : Int
  Dough : Option Dough
  DoughID : Int
  Ingredients : List Ingredient
deriving DecidableEq

/-- `model.PizzaToIngredients`: one join row per (pizza, ingredient)
pair. -/
structure PizzaToIngredients where
  PizzaID : Int
  IngredientID : Int
deriving DecidableEq

/-- External-call outcomes of one `RecordRecommendation` invocation:
`inject` is the result of `errorinjector.InjectErrors(ctx,
"record-recommendation")`, `insertErr` the storage outcome of the pizza
`INSERT`, `joinErr` that of the join-row inserts (only reachable when
there is at least one ingredient), `deleteErr` that of the enforcer's
`DELETE`, and `newId`/`newCa` the id and `created_at` assigned to the
inserted pizza row. -/
structure RecOpParams where
  inject : Option String
  insertErr : Option String
  joinErr : Option String
  deleteErr : Option String
  newId : Int
  newCa : Int
  pizza : Pizza

/-- `(*Catalog).RecordRecommendation` from `catalog.go`: consult the
fault-injection check point and abort with its error before touching
anything; then copy `pizza.Dough.ID` onto `pizza.DoughID` — a nil
dereference (result `none` of the whole model, the Go panic) when the
Dough reference is absent; then inside one transaction insert the pizza
row (which sets `pizza.ID`), insert one join row per ingredient, and
run `enforceTableSizeLimits` with `(fixedPizzas, maxPizzas)`; any
storage failure rolls the transaction back.  Returns the final value of
the caller's `Pizza`, the pizzas table, the join table, and the
returned error. -/
def RecordRecommendation (tb : Row → Row → Bool) (fixedPizzas maxPizzas : Int)
    (p : RecOpParams) (pizzas : List Row) (joins : List PizzaToIngredients) :
    Option (Pizza × List Row × List PizzaToIngredients × Option String) :=
  match p.inject with
  | some e => some (p.pizza, pizzas, joins, some e)
  | none =>
    match p.pizza.Dough with
    | none => none
    | some d =>
      let pz := { p.pizza with DoughID := d.ID }
      match p.insertErr with
      | some e => some (pz, pizzas, joins, some e)
      | none =>
        let pz2 := { pz with ID := p.newId }
        match p.joinErr, pz2.Ingredients with
        | some e, _ :: _ => some (pz2, pizzas, joins, some e)
        | _, _ =>
          match p.deleteErr with
          | some e => some (pz2, pizzas, joins, some e)
          | none =>
            some (pz2,
              enforceTableSizeLimits tb fixedPizzas maxPizzas
                (pizzas ++ [{ id := p.newId, created_at := p.newCa }]),
              joins ++ pz2.Ingredients.map (fun i => ⟨p.newId, i.ID⟩),
              none)

/-- The bounded tables the Transactional Recorder operations touch. -/
structure DBState where
  users : List Row
  pizzas : List Row
  joins : List PizzaToIngredients
deriving DecidableEq

/-- The size-policy integers a `Catalog` holds, fixed at startup
(`fixedRatings`/`maxRatings` are carried by the Go struct but no
operation in this package uses them). -/
structure Config where
  fixedPizzas : Int
  fixedUsers : Int
  fixedRatings : Int
  maxPizzas : Int
  maxUsers : Int
  maxRatings : Int
deriving DecidableEq

/-- One Transactional Recorder invocation together with its external
outcomes. -/
inductive CatalogOp where
  | opUser (p : UserOpParams)
  | opRec (p : RecOpParams)

/-- Effect of one Transactional Recorder invocation on the tables.  A
`RecordRecommendation` that faults (nil Dough dereference) commits
nothing, so the state is unchanged. -/
def applyOp (tb : Row → Row → Bool) (cfg : Config) (st : DBState)
    (op : CatalogOp) : DBState :=
  match op with
  | .opUser p => { st with users := (RecordUser tb cfg.fixedUsers cfg.maxUsers p st.users).2.1 }
  | .opRec p =>
    match RecordRecommendation tb cfg.fixedPizzas cfg.maxPizzas p st.pizzas st.joins with
    | none => st
    | some (_, pzs, js, _) => { st with pizzas := pzs, joins := js }

/-- Run a sequence of Transactional Recorder invocations. -/
def runOps (tb : Row → Row → Bool) (cfg : Config) (ops : List CatalogOp)
    (st : DBState) : DBState :=
  ops.foldl (applyOp tb cfg) st

/-- A tie order an engine may use on equal timestamps: rows with the
smaller id rank higher.  A strict total order on any table with
pairwise distinct ids. -/
def tieBreakLowIdFirst (r q : Row) : Bool :=
  decide (q.id < r.id)

/-- A degenerate tie order for tables whose timestamps are pairwise
distinct, where the tie order is never consulted. -/
def tieBreakNone (_ _ : Row) : Bool :=
  false

/-- A `CheckPassword` stand-in that rejects every pair. -/
def checkNever (_ _ : String) : Bool :=
  false

/-- A `HashPassword` stand-in that always succeeds, appending a
marker. -/
def hashOk (s : String) : Except String String :=
  Except.ok (s ++ "#digest")

/-! ### Helper lemmas -/

/-- Splitting a count over a disjunction of predicates. -/
theorem countP_or_split {α : Type} (p q : α → Bool) (l : List α) :
    l.countP (fun a => p a || q a) = l.countP p + l.countP (fun a => q a && !p a) := by
  induction l with
  | nil => rfl
  | cons a t ih =>
    rw [List.countP_cons, List.countP_cons, List.countP_cons, ih]
    cases hp : p a <;> cases hq : q a <;> simp [hp, hq] <;> omega

/-- A finite nonempty set that is totally and transitively ordered by a
strict order has a greatest element. -/
theorem exists_greatest {α : Type} (lt : α → α → Bool) :
    ∀ (l : List α), l ≠ [] →
    (∀ r ∈ l, ∀ q ∈ l, r ≠ q → lt r q = true ∨ lt q r = true) →
    (∀ r ∈ l, ∀ q ∈ l, ∀ s ∈ l, lt r q = true → lt q s = true → lt r s = true) →
    ∃ m ∈ l, ∀ r ∈ l, r ≠ m → lt r m = true := by
  intro l
  induction l with
  | nil => intro h; exact absurd rfl h
  | cons a t ih =>
    intro _ htot htr
    by_cases ht : t = []
    · subst ht
      refine ⟨a, List.mem_cons_self a [], ?_⟩
      intro r hr hne2
      have := List.mem_singleton.mp hr
      exact absurd this hne2
    · obtain ⟨m, hm, hmax⟩ := ih ht
        (fun r hr q hq hne2 =>
          htot r (List.mem_cons_of_mem a hr) q (List.mem_cons_of_mem a hq) hne2)
        (fun r hr q hq s hs h1 h2 =>
          htr r (List.mem_cons_of_mem a hr) q (List.mem_cons_of_mem a hq) s
            (List.mem_cons_of_mem a hs) h1 h2)
      by_cases hlt : lt a m = true
      · refine ⟨m, List.mem_cons_of_mem a hm, ?_⟩
        intro r hr hrm
        rcases List.mem_cons.mp hr with rfl | hr2
        · exact hlt
        · exact hmax r hr2 hrm
      · refine ⟨a, List.mem_cons_self a t, ?_⟩
        intro r hr hra
        rcases List.mem_cons.mp hr with rfl | hr2
        · exact absurd rfl hra
        · by_cases hrm : r = m
          · subst hrm
            have hne3 : a ≠ r := fun h => hra h.symm
            rcases htot a (List.mem_cons_self a t) r (List.mem_cons_of_mem a hr2) hne3
              with h | h
            · exact absurd h hlt
            · exact h
          · have h1 : lt r m = true := hmax r hr2 hrm
            by_cases hma : m = a
            · rw [← hma]; exact h1
            · have hne4 : a ≠ m := fun h => hma h.symm
              rcases htot a (List.mem_cons_self a t) m (List.mem_cons_of_mem a hm) hne4
                with h2 | h2
              · exact absurd h2 hlt
              · exact htr r (List.mem_cons_of_mem a hr2) m (List.mem_cons_of_mem a hm) a
                  (List.mem_cons_self a t) h1 h2

/-- Order statistics: in a duplicate-free list strictly totally ordered
by `lt`, exactly `min k n` elements have fewer than `k` elements above
them.  This is the size of the result of `ORDER BY ... LIMIT k`. -/
theorem countP_rank_lt {α : Type} [DecidableEq α] (lt : α → α → Bool) :
    ∀ (n : Nat) (l : List α), l.length = n → l.Nodup →
    (∀ r ∈ l, ∀ q ∈ l, r ≠ q → lt r q = true ∨ lt q r = true) →
    (∀ r ∈ l, ∀ q ∈ l, lt r q = true → lt q r = false) →
    (∀ r ∈ l, ∀ q ∈ l, ∀ s ∈ l, lt r q = true → lt q s = true → lt r s = true) →
    ∀ k : Nat, l.countP (fun r => decide (l.countP (lt r) < k)) = min k n := by
  intro n
  induction n with
  | zero =>
    intro l hlen _ _ _ _ k
    have h0 : l = [] := List.length_eq_zero.mp hlen
    subst h0
    simp
  | succ n ih =>
    intro l hlen hnd htot hasym htr k
    have hne : l ≠ [] := by intro h; subst h; simp at hlen
    obtain ⟨m, hm, hmax⟩ := exists_greatest lt l hne htot htr
    have hperm : List.Perm l (m :: l.erase m) := List.perm_cons_erase hm
    set l2 := l.erase m with hl2
    have hlen2 : l2.length = n := by
      rw [hl2, List.length_erase_of_mem hm, hlen]
      omega
    have hsub : ∀ x ∈ l2, x ∈ l := fun x hx => List.mem_of_mem_erase hx
    have hne2 : ∀ r ∈ l2, r ≠ m := fun r hr => (hnd.mem_erase_iff.mp hr).1
    have hrm : l.countP (lt m) = 0 := by
      apply List.countP_eq_zero.mpr
      intro q hq
      by_cases hqm : q = m
      · subst hqm
        intro hq2
        have h3 := hasym q hq q hq hq2
        rw [hq2] at h3
        exact Bool.noConfusion h3
      · intro hq2
        have h3 : lt q m = true := hmax q hq hqm
        have h4 : lt m q = false := hasym q hq m hm h3
        rw [hq2] at h4
        exact Bool.noConfusion h4
    have hsplit : ∀ r ∈ l2, l.countP (lt r) = l2.countP (lt r) + 1 := by
      intro r hr
      rw [hperm.countP_eq (lt r), List.countP_cons]
      have hrm2 : lt r m = true := hmax r (hsub r hr) (hne2 r hr)
      simp [hrm2]
    rw [hperm.countP_eq, List.countP_cons]
    cases k with
    | zero => simp
    | succ k =>
      have h1 : l2.countP (fun r => decide (l.countP (lt r) < k + 1))
          = l2.countP (fun r => decide (l2.countP (lt r) < k)) := by
        apply List.countP_congr
        intro r hr
        simp only [decide_eq_true_eq]
        rw [hsplit r hr]
        omega
      have h2 := ih l2 hlen2 (hnd.erase m)
        (fun r hr q hq => htot r (hsub r hr) q (hsub q hq))
        (fun r hr q hq => hasym r (hsub r hr) q (hsub q hq))
        (fun r hr q hq s hs => htr r (hsub r hr) q (hsub q hq) s (hsub s hs))
        k
      rw [h1, h2]
      simp [hrm]
      omega

/-- `engineLt` is total on rows where the tie order is. -/
theorem engineLt_total_of (tb : Row → Row → Bool) (r q : Row)
    (htb : r.created_at = q.created_at → tb r q = true ∨ tb q r = true) :
    engineLt tb r q = true ∨ engineLt tb q r = true := by
  unfold engineLt
  rcases lt_trichotomy r.created_at q.created_at with h | h | h
  · left; simp [h]
  · rcases htb h with h2 | h2
    · left; simp [h, h2]
    · right; simp [h.symm, h2]
  · right; simp [h]

/-- `engineLt` is asymmetric where the tie order is. -/
theorem engineLt_asym_of (tb : Row → Row → Bool) (r q : Row)
    (htb : tb r q = true → tb q r = false)
    (h : engineLt tb r q = true) : engineLt tb q r = false := by
  simp only [engineLt, Bool.or_eq_true, Bool.and_eq_true, decide_eq_true_eq] at h
  apply Bool.eq_false_iff.mpr
  intro h2
  simp only [engineLt, Bool.or_eq_true, Bool.and_eq_true, decide_eq_true_eq] at h2
  rcases h with h | ⟨hca, htbrq⟩ <;> rcases h2 with h2 | ⟨hca2, htbqr⟩
  · omega
  · omega
  · omega
  · have h3 := htb htbrq
    rw [htbqr] at h3
    exact Bool.noConfusion h3

/-- `engineLt` is transitive where the tie order is. -/
theorem engineLt_trans_of (tb : Row → Row → Bool) (r q s : Row)
    (htb : tb r q = true → tb q s = true → tb r s = true)
    (h1 : engineLt tb r q = true) (h2 : engineLt tb q s = true) :
    engineLt tb r s = true := by
  simp only [engineLt, Bool.or_eq_true, Bool.and_eq_true, decide_eq_true_eq] at h1 h2 ⊢
  rcases h1 with h1 | ⟨hca1, ht1⟩ <;> rcases h2 with h2 | ⟨hca2, ht2⟩
  · left; omega
  · left; omega
  · left; omega
  · right; exact ⟨by omega, htb ht1 ht2⟩

/-- Exactly `min maximum.toNat n` rows of a duplicate-free table are in
the `LIMIT maximum` selection, provided the engine's tie order is a
strict total order on the table. -/
theorem countP_inTop_eq (tb : Row → Row → Bool) (maximum : Int) (table : List Row)
    (hnd : table.Nodup)
    (htot : ∀ r ∈ table, ∀ q ∈ table, r ≠ q → tb r q = true ∨ tb q r = true)
    (hasym : ∀ r ∈ table, ∀ q ∈ table, tb r q = true → tb q r = false)
    (htr : ∀ r ∈ table, ∀ q ∈ table, ∀ s ∈ table,
      tb r q = true → tb q s = true → tb r s = true)
    (hpos : 0 ≤ maximum) :
    table.countP (inTop tb maximum table) = min maximum.toNat table.length := by
  have key := countP_rank_lt (engineLt tb) table.length table rfl hnd
    (fun r hr q hq hne => engineLt_total_of tb r q (fun _ => htot r hr q hq hne))
    (fun r hr q hq h => engineLt_asym_of tb r q (hasym r hr q hq) h)
    (fun r hr q hq s hs h1 h2 => engineLt_trans_of tb r q s (htr r hr q hq s hs) h1 h2)
    maximum.toNat
  rw [← key]
  apply List.countP_congr
  intro r _
  simp only [inTop, rank, decide_eq_true_eq]
  omega

/-- Rows protected by the fixed prefix always survive enforcement. -/
theorem enforce_keeps_protected (tb : Row → Row → Bool) (fixed maximum : Int)
    (table : List Row) (r : Row) (hr : r ∈ table) (hid : r.id ≤ fixed) :
    r ∈ enforceTableSizeLimits tb fixed maximum table := by
  unfold enforceTableSizeLimits
  by_cases hm : maximum ≤ 0
  · rw [if_pos hm]; exact hr
  · rw [if_neg hm]
    exact List.mem_filter.mpr ⟨hr, by simp [hid]⟩

/-- The users table after `RecordUser` is either untouched or the
enforced extension by the new row. -/
theorem recordUser_users_cases (tb : Row → Row → Bool) (fx mx : Int)
    (p : UserOpParams) (users : List Row) :
    (RecordUser tb fx mx p users).2.1 = users ∨
    (RecordUser tb fx mx p users).2.1
      = enforceTableSizeLimits tb fx mx
          (users ++ [{ id := p.newId, created_at := p.newCa }]) := by
  unfold RecordUser
  cases p.hash p.user.Password with
  | error e => left; rfl
  | ok h =>
    cases p.insertErr with
    | some e => left; rfl
    | none =>
      cases p.deleteErr with
      | some e => left; rfl
      | none => right; rfl

/-- The pizzas table after `RecordRecommendation` is either untouched
or the enforced extension by the new row. -/
theorem recordRec_pizzas_cases (tb : Row → Row → Bool) (fx mx : Int)
    (p : RecOpParams) (pizzas : List Row) (joins : List PizzaToIngredients) :
    (∀ out, RecordRecommendation tb fx mx p pizzas joins = some out →
      out.2.1 = pizzas ∨
      out.2.1 = enforceTableSizeLimits tb fx mx
          (pizzas ++ [{ id := p.newId, created_at := p.newCa }])) := by
  intro out hout
  unfold RecordRecommendation at hout
  cases hinj : p.inject with
  | some e => rw [hinj] at hout; injection hout with h; rw [← h]; left; rfl
  | none =>
    rw [hinj] at hout
    cases hdo : p.pizza.Dough with
    | none => rw [hdo] at hout; exact Option.noConfusion hout
    | some d =>
      rw [hdo] at hout
      cases hins : p.insertErr with
      | some e => rw [hins] at hout; injection hout with h; rw [← h]; left; rfl
      | none =>
        rw [hins] at hout
        cases hje : p.joinErr with
        | some e =>
          rw [hje] at hout
          cases hing : p.pizza.Ingredients with
          | cons a t =>
            simp only [hing] at hout
            injection hout with h; rw [← h]; left; rfl
          | nil =>
            simp only [hing] at hout
            cases hdel : p.deleteErr with
            | some e2 => rw [hdel] at hout; injection hout with h; rw [← h]; left; rfl
            | none => rw [hdel] at hout; injection hout with h; rw [← h]; right; rfl
        | none =>
          rw [hje] at hout
          cases hdel : p.deleteErr with
          | some e2 =>
            rw [hdel] at hout
            rcases hing : p.pizza.Ingredients with _ | ⟨a, t⟩ <;>
              simp only [hing] at hout <;>
              (injection hout with h; rw [← h]; left; rfl)
          | none =>
            rw [hdel] at hout
            rcases hing : p.pizza.Ingredients with _ | ⟨a, t⟩ <;>
              simp only [hing] at hout <;>
              (injection hout with h; rw [← h]; right; rfl)

/-- Size of the table after enforcement when it holds more than
`maximum > 0` rows: the `maximum` selected rows plus the protected rows
that fell outside the selection. -/
theorem enforce_length (tb : Row → Row → Bool) (fixed maximum : Int) (table : List Row)
    (hnd : table.Nodup)
    (htot : ∀ r ∈ table, ∀ q ∈ table, r ≠ q → tb r q = true ∨ tb q r = true)
    (hasym : ∀ r ∈ table, ∀ q ∈ table, tb r q = true → tb q r = false)
    (htr : ∀ r ∈ table, ∀ q ∈ table, ∀ s ∈ table,
      tb r q = true → tb q s = true → tb r s = true)
    (hpos : 0 < maximum) (hlen : maximum < (table.length : Int)) :
    (enforceTableSizeLimits tb fixed maximum table).length
      = maximum.toNat
        + table.countP (fun r => decide (r.id ≤ fixed) && !(inTop tb maximum table r)) := by
  unfold enforceTableSizeLimits
  rw [if_neg (by omega)]
  rw [← List.countP_eq_length_filter]
  rw [countP_or_split (inTop tb maximum table) (fun r => decide (r.id ≤ fixed)) table]
  rw [countP_inTop_eq tb maximum table hnd htot hasym htr (by omega)]
  have hmin : min maximum.toNat table.length = maximum.toNat := by omega
  rw [hmin]

/-- Enforcement is idempotent: the rank of a surviving row can only
drop, so a second pass deletes nothing. -/
theorem enforce_idem (tb : Row → Row → Bool) (fixed maximum : Int) (table : List Row) :
    enforceTableSizeLimits tb fixed maximum (enforceTableSizeLimits tb fixed maximum table)
      = enforceTableSizeLimits tb fixed maximum table := by
  by_cases hm : maximum ≤ 0
  · simp only [enforceTableSizeLimits, if_pos hm]
  · simp only [enforceTableSizeLimits, if_neg hm]
    apply List.filter_eq_self.mpr
    intro r hr
    have h1 := List.mem_filter.mp hr
    rcases Bool.or_eq_true_iff.mp h1.2 with htop | hprot
    · apply Bool.or_eq_true_iff.mpr
      left
      have hle : rank tb
          (table.filter fun r => inTop tb maximum table r || decide (r.id ≤ fixed)) r
          ≤ rank tb table r := by
        unfold rank
        rw [List.countP_filter]
        exact List.countP_mono_left (fun x _ h => (Bool.and_eq_true_iff.mp h).1)
      simp only [inTop, decide_eq_true_eq] at htop
      exact decide_eq_true (by omega)
    · apply Bool.or_eq_true_iff.mpr
      right
      exact hprot

/-- When no two rows of the table share a timestamp, the engine's tie
order is never consulted: enforcement agrees with the spec's
identity-descending description. -/
theorem enforce_eq_spec_of_nodup_created (tb : Row → Row → Bool) (fixed maximum : Int)
    (table : List Row)
    (hir : ∀ r ∈ table, tb r r = false)
    (hca : (table.map Row.created_at).Nodup) :
    enforceTableSizeLimits tb fixed maximum table
      = enforceTableSizeLimits specTieBreak fixed maximum table := by
  have hinj : ∀ x ∈ table, ∀ y ∈ table, x.created_at = y.created_at → x = y :=
    List.inj_on_of_nodup_map hca
  have hlt : ∀ r ∈ table, ∀ q ∈ table, engineLt tb r q = engineLt specTieBreak r q := by
    intro r hr q hq
    by_cases hceq : r.created_at = q.created_at
    · have heq : r = q := hinj r hr q hq hceq
      subst heq
      simp [engineLt, specTieBreak, hir r hr]
    · simp [engineLt, specTieBreak, hceq]
  have hrank : ∀ r ∈ table, rank tb table r = rank specTieBreak table r := by
    intro r hr
    unfold rank
    apply List.countP_congr
    intro q hq
    rw [hlt r hr q hq]
  unfold enforceTableSizeLimits
  by_cases hm : maximum ≤ 0
  · rw [if_pos hm, if_pos hm]
  · rw [if_neg hm, if_neg hm]
    apply List.filter_congr
    intro r hr
    simp only [inTop, hrank r hr]

/-- Protected user rows survive one Transactional Recorder step. -/
theorem applyOp_keeps_protected_users (tb : Row → Row → Bool) (cfg : Config)
    (st : DBState) (op : CatalogOp) (r : Row)
    (hr : r ∈ st.users) (hid : r.id ≤ cfg.fixedUsers) :
    r ∈ (applyOp tb cfg st op).users := by
  cases op with
  | opUser p =>
    simp only [applyOp]
    rcases recordUser_users_cases tb cfg.fixedUsers cfg.maxUsers p st.users with h | h <;>
      rw [h]
    · exact hr
    · exact enforce_keeps_protected tb cfg.fixedUsers cfg.maxUsers _ r
        (List.mem_append_left _ hr) hid
  | opRec p =>
    simp only [applyOp]
    cases hres : RecordRecommendation tb cfg.fixedPizzas cfg.maxPizzas p st.pizzas st.joins with
    | none => exact hr
    | some out => exact hr

/-- Protected pizza rows survive one Transactional Recorder step. -/
theorem applyOp_keeps_protected_pizzas (tb : Row → Row → Bool) (cfg : Config)
    (st : DBState) (op : CatalogOp) (r : Row)
    (hr : r ∈ st.pizzas) (hid : r.id ≤ cfg.fixedPizzas) :
    r ∈ (applyOp tb cfg st op).pizzas := by
  cases op with
  | opUser p => exact hr
  | opRec p =>
    simp only [applyOp]
    cases hres : RecordRecommendation tb cfg.fixedPizzas cfg.maxPizzas p st.pizzas st.joins with
    | none => exact hr
    | some out =>
      rcases recordRec_pizzas_cases tb cfg.fixedPizzas cfg.maxPizzas p st.pizzas st.joins
        out hres with h | h <;> simp only [h]
      · exact hr
      · exact enforce_keeps_protected tb cfg.fixedPizzas cfg.maxPizzas _ r
          (List.mem_append_left _ hr) hid

/-- Protected rows survive any sequence of Transactional Recorder
steps. -/
theorem runOps_keeps_protected (tb : Row → Row → Bool) (cfg : Config)
    (ops : List CatalogOp) :
    ∀ (st : DBState) (r : Row),
      (r ∈ st.users → r.id ≤ cfg.fixedUsers → r ∈ (runOps tb cfg ops st).users) ∧
      (r ∈ st.pizzas → r.id ≤ cfg.fixedPizzas → r ∈ (runOps tb cfg ops st).pizzas) := by
  induction ops with
  | nil => intro st r; exact ⟨fun h _ => h, fun h _ => h⟩
  | cons op rest ih =>
    intro st r
    constructor
    · intro hr hid
      exact (ih (applyOp tb cfg st op) r).1
        (applyOp_keeps_protected_users tb cfg st op r hr hid) hid
    · intro hr hid
      exact (ih (applyOp tb cfg st op) r).2
        (applyOp_keeps_protected_pizzas tb cfg st op r hr hid) hid


/-! ### Claims -/

/-- C1 (counterexample): with two rows sharing a timestamp, an engine
may order the tie with the smaller id first — `tieBreakLowIdFirst` is a
legitimate strict total tie order, checked on the table — and
`enforceTableSizeLimits` then keeps row 1, while the claim's
identity-descending tie-break prescribes keeping row 2.  The deleted
set is therefore not the one the claim describes. -/
theorem c1_tie_break_counterexample :
    (∀ r ∈ ([⟨1, 0⟩, ⟨2, 0⟩] : List Row), tieBreakLowIdFirst r r = false) ∧
    (∀ r ∈ ([⟨1, 0⟩, ⟨2, 0⟩] : List Row), ∀ q ∈ ([⟨1, 0⟩, ⟨2, 0⟩] : List Row), r ≠ q →
      tieBreakLowIdFirst r q = true ∨ tieBreakLowIdFirst q r = true) ∧
    enforceTableSizeLimits tieBreakLowIdFirst 0 1 [⟨1, 0⟩, ⟨2, 0⟩] = [⟨1, 0⟩] ∧
    enforceTableSizeLimits specTieBreak 0 1 [⟨1, 0⟩, ⟨2, 0⟩] = [⟨2, 0⟩] ∧
    enforceTableSizeLimits tieBreakLowIdFirst 0 1 [⟨1, 0⟩, ⟨2, 0⟩]
      ≠ enforceTableSizeLimits specTieBreak 0 1 [⟨1, 0⟩, ⟨2, 0⟩] := by
  decide

/-- C1 (amended): the enforcer deletes exactly the rows neither in the
engine's `created_at`-descending top-`maximum` selection nor protected,
where the tie order on equal timestamps is the engine's, not
necessarily identity-descending; when every timestamp in the table is
distinct the result coincides with the claim's identity-descending
description, and when `maximum ≤ 0` nothing is deleted. -/
theorem c1_enforce_matches_spec_on_distinct_timestamps
    (tb : Row → Row → Bool) (fixed maximum : Int) (table : List Row)
    (hir : ∀ r ∈ table, tb r r = false)
    (hca : (table.map Row.created_at).Nodup) :
    enforceTableSizeLimits tb fixed maximum table
      = enforceTableSizeLimits specTieBreak fixed maximum table ∧
    (maximum ≤ 0 → enforceTableSizeLimits tb fixed maximum table = table) := by
  refine ⟨enforce_eq_spec_of_nodup_created tb fixed maximum table hir hca, ?_⟩
  intro hm
  simp [enforceTableSizeLimits, hm]

/-- Witness for the C1 amended theorem at a concrete table with
distinct timestamps. -/
theorem c1_enforce_matches_spec_on_distinct_timestamps_witness :
    enforceTableSizeLimits tieBreakLowIdFirst 1 2 [⟨1, 0⟩, ⟨2, 5⟩, ⟨3, 7⟩]
      = enforceTableSizeLimits specTieBreak 1 2 [⟨1, 0⟩, ⟨2, 5⟩, ⟨3, 7⟩] :=
  (c1_enforce_matches_spec_on_distinct_timestamps tieBreakLowIdFirst 1 2
    [⟨1, 0⟩, ⟨2, 5⟩, ⟨3, 7⟩] (by decide) (by decide)).1

/-- C2: a row whose identity is at most `fixed` is never deleted — by a
single enforcement call with any parameters and any table size, nor
across any sequence of Transactional Recorder operations (each of which
deletes only through its enforcement call). -/
theorem c2_protected_rows_never_deleted
    (tb : Row → Row → Bool) (fixed maximum : Int) (table : List Row)
    (cfg : Config) (ops : List CatalogOp) (st : DBState) (r : Row) :
    (r ∈ table → r.id ≤ fixed →
      r ∈ enforceTableSizeLimits tb fixed maximum table) ∧
    (r ∈ st.users → r.id ≤ cfg.fixedUsers → r ∈ (runOps tb cfg ops st).users) ∧
    (r ∈ st.pizzas → r.id ≤ cfg.fixedPizzas → r ∈ (runOps tb cfg ops st).pizzas) :=
  ⟨fun hr hid => enforce_keeps_protected tb fixed maximum table r hr hid,
   (runOps_keeps_protected tb cfg ops st r).1,
   (runOps_keeps_protected tb cfg ops st r).2⟩

/-- Witness for C2: a protected row survives an enforcement that would
otherwise evict it, and survives a recorder operation that trims the
table. -/
theorem c2_protected_rows_never_deleted_witness :
    ((⟨1, 0⟩ : Row) ∈ enforceTableSizeLimits tieBreakLowIdFirst 1 1 [⟨1, 0⟩, ⟨2, 5⟩]) ∧
    ((⟨1, 0⟩ : Row) ∈ (runOps tieBreakLowIdFirst
        { fixedPizzas := 100, fixedUsers := 1, fixedRatings := 10,
          maxPizzas := 5000, maxUsers := 1, maxRatings := 10000 }
        [CatalogOp.opUser
          { hash := hashOk, tok := "tok", insertErr := none, deleteErr := none,
            newId := 2, newCa := 5,
            user := { ID := 0, Username := "carol", Token := "", Password := "pw",
                      PasswordHash := "" } }]
        { users := [⟨1, 0⟩], pizzas := [], joins := [] }).users) :=
  ⟨(c2_protected_rows_never_deleted tieBreakLowIdFirst 1 1 [⟨1, 0⟩, ⟨2, 5⟩]
      { fixedPizzas := 100, fixedUsers := 1, fixedRatings := 10,
        maxPizzas := 5000, maxUsers := 1, maxRatings := 10000 }
      [] { users := [], pizzas := [], joins := [] } ⟨1, 0⟩).1 (by decide) (by decide),
   (c2_protected_rows_never_deleted tieBreakLowIdFirst 1 1 [⟨1, 0⟩, ⟨2, 5⟩]
      { fixedPizzas := 100, fixedUsers := 1, fixedRatings := 10,
        maxPizzas := 5000, maxUsers := 1, maxRatings := 10000 }
      [CatalogOp.opUser
        { hash := hashOk, tok := "tok", insertErr := none, deleteErr := none,
          newId := 2, newCa := 5,
          user := { ID := 0, Username := "carol", Token := "", Password := "pw",
                    PasswordHash := "" } }]
      { users := [⟨1, 0⟩], pizzas := [], joins := [] } ⟨1, 0⟩).2.1 (by decide) (by decide)⟩

/-- C3 (counterexample): the reserved username `default` fails
validation, yet `RecordUser` — which never invokes `Validate` —
succeeds and inserts the row when hashing and storage succeed. -/
theorem c3_counterexample :
    User.Validate { ID := 0, Username := "default", Token := "",
                    Password := "secret", PasswordHash := "" }
      = some "username field is invalid" ∧
    RecordUser tieBreakNone 10 5000
        { hash := hashOk, tok := "tok0", insertErr := none, deleteErr := none,
          newId := 1, newCa := 0,
          user := { ID := 0, Username := "default", Token := "", Password := "secret",
                    PasswordHash := "" } } []
      = ({ ID := 0, Username := "default", Token := "tok0", Password := "secret",
           PasswordHash := "secret#digest" }, [⟨1, 0⟩], none) := by
  constructor
  · rfl
  · rfl

/-- C3 (amended): `RecordUser` itself performs no validation — for
every candidate user, valid or not, it computes the digest, sets the
token, inserts the row and enforces; the validation rules (username
non-empty, length at most 32, not the reserved literal, password
non-empty) live in `User.Validate`, which callers must invoke
separately and which accepts exactly the users satisfying all four
rules. -/
theorem c3_record_user_skips_validation
    (tb : Row → Row → Bool) (fixed maximum : Int) (p : UserOpParams)
    (users : List Row) (h : String)
    (hh : p.hash p.user.Password = Except.ok h)
    (hins : p.insertErr = none) (hdel : p.deleteErr = none) :
    RecordUser tb fixed maximum p users
      = ({ p.user with PasswordHash := h, Token := p.tok },
         enforceTableSizeLimits tb fixed maximum
           (users ++ [{ id := p.newId, created_at := p.newCa }]),
         none) ∧
    (User.Validate p.user = none ↔
      (p.user.Username ≠ "" ∧ p.user.Username.length ≤ MaxNameLength ∧
       p.user.Username ≠ "default" ∧ p.user.Password ≠ "")) := by
  constructor
  · simp only [RecordUser, hh, hins, hdel]
  · unfold User.Validate
    split
    · rename_i h1
      constructor
      · intro hc; exact Option.noConfusion hc
      · rintro ⟨hne, -, -, -⟩; exact absurd h1 hne
    · split
      · rename_i h1 h2
        constructor
        · intro hc; exact Option.noConfusion hc
        · rintro ⟨-, hle, -, -⟩; exact absurd hle (Nat.not_le.mpr h2)
      · split
        · rename_i h1 h2 h3
          constructor
          · intro hc; exact Option.noConfusion hc
          · rintro ⟨-, -, hne, -⟩; exact absurd h3 hne
        · split
          · rename_i h1 h2 h3 h4
            constructor
            · intro hc; exact Option.noConfusion hc
            · rintro ⟨-, -, -, hne⟩; exact absurd h4 hne
          · rename_i h1 h2 h3 h4
            constructor
            · intro _
              exact ⟨h1, Nat.not_lt.mp h2, h3, h4⟩
            · intro _; rfl

/-- Witness for the C3 amended theorem: an invalid user is recorded all
the same. -/
theorem c3_record_user_skips_validation_witness :
    RecordUser tieBreakNone 10 5000
        { hash := hashOk, tok := "tokX", insertErr := none, deleteErr := none,
          newId := 1, newCa := 0,
          user := { ID := 0, Username := "", Token := "", Password := "pw",
                    PasswordHash := "" } } []
      = ({ ID := 0, Username := "", Token := "tokX", Password := "pw",
           PasswordHash := "pw#digest" },
         enforceTableSizeLimits tieBreakNone 10 5000 [⟨1, 0⟩], none) :=
  (c3_record_user_skips_validation tieBreakNone 10 5000
    { hash := hashOk, tok := "tokX", insertErr := none, deleteErr := none,
      newId := 1, newCa := 0,
      user := { ID := 0, Username := "", Token := "", Password := "pw",
                PasswordHash := "" } } [] "pw#digest" rfl rfl rfl).1

/-- C4: `LoginUser` swallows storage errors — whenever the username
lookup fails with any storage error other than `sql.ErrNoRows`, the
error component of the result is `none`: the error is not returned to
the caller, contrary to the error-propagation design. -/
theorem c4_login_swallows_storage_error (check : String → String → Bool)
    (e passwordText : String) :
    (LoginUser check (LookupResult.dbError e) passwordText).2 = none := by
  unfold LoginUser
  by_cases h : check passwordText emptyUser.PasswordHash <;> simp [h]

/-- C5 (counterexample): two rows inserted with `fixed = 1`,
`maximum = 1` — more than `maximum` rows — yet after enforcement both
rows remain: the protected old row survives alongside the most recent
one, so the remaining count is 2, not exactly `maximum = 1`. -/
theorem c5_counterexample :
    1 < ([⟨1, 0⟩, ⟨2, 5⟩] : List Row).length ∧
    enforceTableSizeLimits tieBreakLowIdFirst 1 1 [⟨1, 0⟩, ⟨2, 5⟩] = [⟨1, 0⟩, ⟨2, 5⟩] ∧
    (enforceTableSizeLimits tieBreakLowIdFirst 1 1 [⟨1, 0⟩, ⟨2, 5⟩]).length ≠ 1 := by
  decide

/-- C5 (amended): with more than `maximum > 0` rows, distinct ids, and a
strict total engine tie order, after enforcement every row with id at
most `fixed` remains, and the number of remaining rows is `maximum`
plus the number of protected rows outside the selected top-`maximum` —
in particular exactly `maximum` when every protected row is among the
`maximum` most recent. -/
theorem c5_enforce_row_count
    (tb : Row → Row → Bool) (fixed maximum : Int) (table : List Row)
    (hids : (table.map Row.id).Nodup)
    (htot : ∀ r ∈ table, ∀ q ∈ table, r ≠ q → tb r q = true ∨ tb q r = true)
    (hasym : ∀ r ∈ table, ∀ q ∈ table, tb r q = true → tb q r = false)
    (htr : ∀ r ∈ table, ∀ q ∈ table, ∀ s ∈ table,
      tb r q = true → tb q s = true → tb r s = true)
    (hpos : 0 < maximum) (hmore : maximum < (table.length : Int)) :
    (∀ r ∈ table, r.id ≤ fixed → r ∈ enforceTableSizeLimits tb fixed maximum table) ∧
    (enforceTableSizeLimits tb fixed maximum table).length
      = maximum.toNat
        + table.countP (fun r => decide (r.id ≤ fixed) && !(inTop tb maximum table r)) ∧
    ((∀ r ∈ table, r.id ≤ fixed → inTop tb maximum table r = true) →
      (enforceTableSizeLimits tb fixed maximum table).length = maximum.toNat) := by
  have hnd2 : table.Nodup := List.Nodup.of_map Row.id hids
  refine ⟨fun r hr hid => enforce_keeps_protected tb fixed maximum table r hr hid,
    enforce_length tb fixed maximum table hnd2 htot hasym htr hpos hmore, ?_⟩
  intro hall
  rw [enforce_length tb fixed maximum table hnd2 htot hasym htr hpos hmore]
  have h0 : table.countP
      (fun r => decide (r.id ≤ fixed) && !(inTop tb maximum table r)) = 0 := by
    apply List.countP_eq_zero.mpr
    intro r hr hcontra
    rcases Bool.and_eq_true_iff.mp hcontra with ⟨hid, hnot⟩
    rw [hall r hr (of_decide_eq_true hid)] at hnot
    exact Bool.noConfusion hnot
  omega

/-- Witness for the C5 amended theorem: three rows, `fixed = 1`,
`maximum = 2`; the old protected row survives outside the top two, so
three rows remain. -/
theorem c5_enforce_row_count_witness :
    (enforceTableSizeLimits tieBreakLowIdFirst 1 2 [⟨1, 0⟩, ⟨2, 5⟩, ⟨3, 7⟩]).length = 3 :=
  (c5_enforce_row_count tieBreakLowIdFirst 1 2 [⟨1, 0⟩, ⟨2, 5⟩, ⟨3, 7⟩]
    (by decide) (by decide) (by decide) (by decide) (by decide) (by decide)).2.1

/-- C6: enforcement is idempotent — re-running
`enforceTableSizeLimits` immediately on the table it has just trimmed
(with the engine resolving timestamp ties the same way) deletes no
further rows and leaves the table unchanged, for every table state and
every `(fixed, maximum)`. -/
theorem c6_enforce_idempotent (tb : Row → Row → Bool) (fixed maximum : Int)
    (table : List Row) :
    enforceTableSizeLimits tb fixed maximum (enforceTableSizeLimits tb fixed maximum table)
      = enforceTableSizeLimits tb fixed maximum table :=
  enforce_idem tb fixed maximum table

/-- C7: `LoginUser` returns the stored user exactly when the lookup
finds it and the plaintext verifies against the stored digest; an
unknown username and a failed verification both yield the identical
absent result `(none, none)` with no error. -/
theorem c7_login_enumeration_resistance (check : String → String → Bool)
    (passwordText : String) (u : User) :
    LoginUser check LookupResult.noRows passwordText = (none, none) ∧
    (check passwordText u.PasswordHash = false →
      LoginUser check (LookupResult.found u) passwordText
        = LoginUser check LookupResult.noRows passwordText) ∧
    ((LoginUser check (LookupResult.found u) passwordText).1 = some u ↔
      check passwordText u.PasswordHash = true) ∧
    (LoginUser check (LookupResult.found u) passwordText).2 = none := by
  refine ⟨rfl, ?_, ?_, ?_⟩
  · intro h; simp [LoginUser, h]
  · by_cases h : check passwordText u.PasswordHash <;> simp [LoginUser, h]
  · by_cases h : check passwordText u.PasswordHash <;> simp [LoginUser, h]

/-- Witness for C7: a wrong password against a stored user is
indistinguishable from an unknown username. -/
theorem c7_login_enumeration_resistance_witness :
    LoginUser checkNever
        (LookupResult.found { ID := 7, Username := "alice", Token := "t",
                              Password := "", PasswordHash := "h" }) "guess"
      = LoginUser checkNever LookupResult.noRows "guess" :=
  (c7_login_enumeration_resistance checkNever "guess"
    { ID := 7, Username := "alice", Token := "t", Password := "", PasswordHash := "h" }).2.1
    rfl

/-- C8: when the `record-recommendation` check point is armed,
`RecordRecommendation` returns exactly the injected error, inserts no
pizza row and no join rows, and leaves the pizza argument untouched;
the check point is consulted before the Dough dereference and before
any write (the theorem requires nothing of the pizza or the storage
outcomes). -/
theorem c8_injection_aborts_before_writes (tb : Row → Row → Bool)
    (fixedPizzas maxPizzas : Int) (p : RecOpParams)
    (pizzas : List Row) (joins : List PizzaToIngredients) (e : String)
    (hinj : p.inject = some e) :
    RecordRecommendation tb fixedPizzas maxPizzas p pizzas joins
      = some (p.pizza, pizzas, joins, some e) := by
  unfold RecordRecommendation
  rw [hinj]

/-- Witness for C8: an armed check point aborts even a call whose pizza
has no Dough reference, leaving both tables empty. -/
theorem c8_injection_aborts_before_writes_witness :
    RecordRecommendation tieBreakNone 100 5000
        { inject := some "injected", insertErr := none, joinErr := none,
          deleteErr := none, newId := 1, newCa := 0,
          pizza := { ID := 0, Dough := none, DoughID := 0, Ingredients := [] } } [] []
      = some ({ ID := 0, Dough := none, DoughID := 0, Ingredients := [] },
              [], [], some "injected") :=
  c8_injection_aborts_before_writes tieBreakNone 100 5000
    { inject := some "injected", insertErr := none, joinErr := none,
      deleteErr := none, newId := 1, newCa := 0,
      pizza := { ID := 0, Dough := none, DoughID := 0, Ingredients := [] } } [] []
    "injected" rfl

/-- C9: `RecordUser` sets `PasswordHash` and `Token` on its caller's
`User` argument before the transaction opens: whatever the storage
outcome, the returned argument carries the fresh digest and token, and
when the insert or the enforcement fails the operation returns that
mutated argument together with the untouched table and the error. -/
theorem c9_record_user_mutates_argument (tb : Row → Row → Bool)
    (fixed maximum : Int) (p : UserOpParams) (users : List Row) (h e : String)
    (hh : p.hash p.user.Password = Except.ok h) :
    (RecordUser tb fixed maximum p users).1
      = { p.user with PasswordHash := h, Token := p.tok } ∧
    (p.insertErr = some e →
      RecordUser tb fixed maximum p users
        = ({ p.user with PasswordHash := h, Token := p.tok }, users, some e)) ∧
    (p.insertErr = none → p.deleteErr = some e →
      RecordUser tb fixed maximum p users
        = ({ p.user with PasswordHash := h, Token := p.tok }, users, some e)) := by
  refine ⟨?_, ?_, ?_⟩
  · simp only [RecordUser, hh]
    cases p.insertErr <;> cases p.deleteErr <;> rfl
  · intro hi
    simp only [RecordUser, hh, hi]
  · intro hi hd
    simp only [RecordUser, hh, hi, hd]

/-- Witness for C9: a failing insert still leaves the caller's user
with the new digest and token. -/
theorem c9_record_user_mutates_argument_witness :
    RecordUser tieBreakNone 10 5000
        { hash := hashOk, tok := "tok1", insertErr := some "disk full",
          deleteErr := none, newId := 3, newCa := 9,
          user := { ID := 0, Username := "bob", Token := "old", Password := "pw",
                    PasswordHash := "oldhash" } } [⟨1, 0⟩]
      = ({ ID := 0, Username := "bob", Token := "tok1", Password := "pw",
           PasswordHash := "pw#digest" }, [⟨1, 0⟩], some "disk full") :=
  (c9_record_user_mutates_argument tieBreakNone 10 5000
    { hash := hashOk, tok := "tok1", insertErr := some "disk full",
      deleteErr := none, newId := 3, newCa := 9,
      user := { ID := 0, Username := "bob", Token := "old", Password := "pw",
                PasswordHash := "oldhash" } } [⟨1, 0⟩] "pw#digest" "disk full" rfl).2.1
    rfl

/-- C10: with the check point disarmed, `RecordRecommendation` faults
exactly when the pizza's Dough reference is absent; under the
precondition that it is present the call never faults — for any
injection or storage outcome — and every committed or rolled-back
result carries `DoughID` copied from the referenced Dough. -/
theorem c10_dough_dereference (tb : Row → Row → Bool)
    (fixedPizzas maxPizzas : Int) (p : RecOpParams)
    (pizzas : List Row) (joins : List PizzaToIngredients) :
    (p.inject = none →
      ((RecordRecommendation tb fixedPizzas maxPizzas p pizzas joins).isSome
        ↔ p.pizza.Dough.isSome)) ∧
    (∀ d, p.pizza.Dough = some d →
      (RecordRecommendation tb fixedPizzas maxPizzas p pizzas joins).isSome = true ∧
      (∀ pz tbl js err, p.inject = none →
        RecordRecommendation tb fixedPizzas maxPizzas p pizzas joins
          = some (pz, tbl, js, err) → pz.DoughID = d.ID)) := by
  constructor
  · intro hinj
    cases hdo : p.pizza.Dough with
    | none => simp [RecordRecommendation, hinj, hdo]
    | some d =>
      simp only [RecordRecommendation, hinj, hdo]
      cases p.insertErr <;> cases p.joinErr <;> cases p.pizza.Ingredients <;>
        cases p.deleteErr <;> simp
  · intro d hdo
    constructor
    · cases hinj : p.inject with
      | some e => simp [RecordRecommendation, hinj]
      | none =>
        simp only [RecordRecommendation, hinj, hdo]
        cases p.insertErr <;> cases p.joinErr <;> cases p.pizza.Ingredients <;>
          cases p.deleteErr <;> simp
    · intro pz tbl js err hinj hres
      revert hres
      simp only [RecordRecommendation, hinj, hdo]
      cases p.insertErr <;> cases p.joinErr <;> cases p.pizza.Ingredients <;>
        cases p.deleteErr <;>
        · intro hres
          simp only [Option.some.injEq, Prod.mk.injEq] at hres
          rw [← hres.1]

/-- Witness for C10: with a present Dough reference the call does not
fault. -/
theorem c10_dough_dereference_witness :
    (RecordRecommendation tieBreakNone 100 5000
        { inject := none, insertErr := none, joinErr := none, deleteErr := none,
          newId := 4, newCa := 2,
          pizza := { ID := 0, Dough := some ⟨6⟩, DoughID := 0,
                     Ingredients := [⟨11⟩] } } [] []).isSome = true :=
  ((c10_dough_dereference tieBreakNone 100 5000
      { inject := none, insertErr := none, joinErr := none, deleteErr := none,
        newId := 4, newCa := 2,
        pizza := { ID := 0, Dough := some ⟨6⟩, DoughID := 0,
                   Ingredients := [⟨11⟩] } } [] []).2 ⟨6⟩ rfl).1

end QP
